import Mathlib

/-!
Verification of the coding-time-tracker's aggregation, formatting and
tracking logic against its specification.

Embedding conventions, used throughout:

* Calendar dates are stored by the program as ISO `YYYY-MM-DD` strings and
  compared with JavaScript string comparison, which on such strings agrees
  with chronological order.  Entry dates are therefore embedded as integer
  day numbers (`Int`): the image of the date under the day count `toDays`
  defined below.  Sorting, equality and lexicographic comparison of ISO
  strings correspond exactly to the integer order under this bijection, and
  the millisecond difference `(Date(b) - Date(a)) / 86400000` computed by the
  script equals the difference of day numbers (all parsing is UTC; the
  environment's time zone is modelled as UTC).
* JavaScript `number` (IEEE f64) values are embedded as `ℚ`; the arithmetic
  performed by the functions below (sums, averages of minute counts) is
  modelled exactly.
* JavaScript object literals used as string-keyed dictionaries are modelled
  as association lists with `List.lookup`.
-/

/-- A persisted time entry as consumed by the aggregation script embedded in
`src/src/utils.ts` (fields `date` and `timeSpent`; the remaining fields
`project`, `branch`, `language` are not read by any function modelled from
that script). -/
structure Entry where
  date : Int
  timeSpent : ℚ
deriving DecidableEq

/-- Truncation toward zero of a rational, as performed by the JavaScript `%`
remainder operator on its implicit quotient. -/
def ratTrunc (x : ℚ) : ℤ :=
  if 0 ≤ x then ⌊x⌋ else ⌈x⌉

/-- JavaScript remainder `a % b`, which equals `a - b * trunc (a / b)` and
carries the sign of the dividend. -/
def jsRem (a b : ℚ) : ℚ :=
  a - b * (ratTrunc (a / b) : ℚ)

/-- JavaScript `Math.round`: `⌊x + 1/2⌋` (halves round toward positive
infinity). -/
def jsRound (x : ℚ) : ℤ :=
  ⌊x + 1 / 2⌋

/-- Embedding of `formatTime` (src/src/utils.ts lines 1-5):
`hours = Math.floor(minutes / 60)`, `mins = Math.round(minutes % 60)`,
rendered as the string `"<hours>h <mins>m"`. -/
def formatTime (minutes : ℚ) : String :=
  let hours : ℤ := ⌊minutes / 60⌋
  let mins : ℤ := jsRound (jsRem minutes 60)
  toString hours ++ "h " ++ toString mins ++ "m"

/-- The extension-to-language dictionary of `detectLanguageFromFile`
(src/src/utils.ts lines 18-148), transcribed in source order. -/
def languageMap : List (String × String) :=
  [("js", "JavaScript"), ("mjs", "JavaScript"), ("jsx", "JavaScript"),
   ("ts", "TypeScript"), ("tsx", "TypeScript"),
   ("py", "Python"), ("pyw", "Python"), ("pyc", "Python"),
   ("pyo", "Python"), ("pyd", "Python"),
   ("java", "Java"), ("kt", "Kotlin"), ("kts", "Kotlin"),
   ("scala", "Scala"), ("groovy", "Groovy"),
   ("c", "C"), ("h", "C"),
   ("cpp", "C++"), ("cxx", "C++"), ("cc", "C++"),
   ("hpp", "C++"), ("hxx", "C++"), ("cs", "C#"),
   ("html", "HTML"), ("htm", "HTML"), ("css", "CSS"),
   ("scss", "SCSS"), ("sass", "Sass"), ("less", "Less"),
   ("vue", "Vue"), ("svelte", "Svelte"),
   ("php", "PHP"), ("php3", "PHP"), ("php4", "PHP"),
   ("php5", "PHP"), ("phps", "PHP"), ("phtml", "PHP"),
   ("rb", "Ruby"), ("rbw", "Ruby"),
   ("go", "Go"), ("rs", "Rust"), ("swift", "Swift"), ("dart", "Dart"),
   ("sh", "Shell"), ("bash", "Shell"), ("zsh", "Shell"), ("fish", "Shell"),
   ("ps1", "PowerShell"), ("psm1", "PowerShell"), ("psd1", "PowerShell"),
   ("sql", "SQL"), ("r", "R"), ("m", "MATLAB"), ("lua", "Lua"),
   ("pl", "Perl"), ("pm", "Perl"), ("hs", "Haskell"),
   ("ex", "Elixir"), ("exs", "Elixir"),
   ("fs", "F#"), ("fsx", "F#"), ("fsi", "F#"),
   ("clj", "Clojure"), ("cljs", "Clojure"), ("cljc", "Clojure"),
   ("json", "JSON"), ("xml", "XML"),
   ("yaml", "YAML"), ("yml", "YAML"), ("toml", "TOML"),
   ("ini", "INI"), ("cfg", "Config"), ("conf", "Config"),
   ("md", "Markdown"), ("markdown", "Markdown"),
   ("rst", "reStructuredText"), ("tex", "LaTeX"),
   ("dockerfile", "Dockerfile"), ("makefile", "Makefile"),
   ("cmake", "CMake"), ("gradle", "Gradle"), ("properties", "Properties")]

/-- JavaScript `String.prototype.split` at every character satisfying `p`,
on the character list of the string.  Like the JS original it never returns
an empty list, and it produces empty groups around consecutive or trailing
separators. -/
def splitChars (p : Char → Bool) : List Char → List (List Char)
  | [] => [[]]
  | c :: cs =>
    if p c then [] :: splitChars p cs
    else
      match splitChars p cs with
      | [] => [[c]]
      | g :: gs => (c :: g) :: gs

/-- Lowercase a character list and repack it as a string (JS
`toLowerCase` for the ASCII names handled here). -/
def lowerStr (l : List Char) : String :=
  String.mk (l.map Char.toLower)

/-- Embedding of `filePath.split('.').pop()?.toLowerCase()` from `detectLanguageFromFile`. -/
def extOf (filePath : String) : String :=
  lowerStr ((splitChars (fun c => c == '.') filePath.toList).getLastD [])

/-- Embedding of `filePath.split(/[\\\/]/).pop()?.toLowerCase()` from
`detectLanguageFromFile`: the last path component, lowercased. -/
def fileNameOf (filePath : String) : String :=
  lowerStr ((splitChars (fun c => c == '/' || c == '\\') filePath.toList).getLastD [])

/-- Whether `sub` occurs at the start of the second list. -/
def prefixMatch : List Char → List Char → Bool
  | [], _ => true
  | _ :: _, [] => false
  | a :: as, b :: bs => a == b && prefixMatch as bs

/-- Whether `sub` occurs contiguously anywhere in the list. -/
def containsSub (sub : List Char) : List Char → Bool
  | [] => sub.isEmpty
  | c :: t => prefixMatch sub (c :: t) || containsSub sub t

/-- JavaScript `String.prototype.includes`. -/
def strIncludes (s sub : String) : Bool :=
  containsSub sub.toList s.toList

/-- Result of `detectLanguageFromFile`.  The JS function usually returns a
string, but `languageMap[extension]` is a JavaScript property access that
falls through to the object's prototype chain: when the lowercased extension
names an inherited `Object.prototype` member, the truthy guard passes and
the function returns that member — a function or object, not a language-name
string.  `protoMember n` models that inherited, non-string value. -/
inductive DetectResult
  | str (s : String)
  | protoMember (name : String)
deriving DecidableEq

/-- Whether a result of `detectLanguageFromFile` is a string (as opposed to
an inherited `Object.prototype` member). -/
def DetectResult.isStr : DetectResult → Bool
  | .str _ => true
  | .protoMember _ => false

/-- The own property names of `Object.prototype` that consist of lowercase
characters only.  The extension is lowercased before the lookup and property
access is case-sensitive, so of the inherited members (`constructor`,
`hasOwnProperty`, `isPrototypeOf`, `propertyIsEnumerable`, `toLocaleString`,
`toString`, `valueOf`, the dunder accessor helpers and `__proto__`) exactly
these two are reachable; both are truthy (the `Object` constructor function
and the `Object.prototype` object). -/
def protoProps : List String :=
  ["constructor", "__proto__"]

/-- The extension branch of `detectLanguageFromFile`: the JS guard
`if (extension && languageMap[extension])` with JavaScript property-lookup
semantics — own properties of the object literal first (all of whose values
are nonempty, hence truthy, strings), then the inherited `Object.prototype`
members reachable through a lowercased key; an absent property is
`undefined`, hence falsy. -/
def detectExtLookup (filePath : String) : Option DetectResult :=
  if extOf filePath = "" then none
  else
    match List.lookup (extOf filePath) languageMap with
    | some lang => some (.str lang)
    | none =>
      if extOf filePath ∈ protoProps then some (.protoMember (extOf filePath))
      else none

/-- The special-filename branch of `detectLanguageFromFile`
(src/src/utils.ts lines 154-166), reached when the extension lookup fails;
an empty filename is skipped by the JS truthiness guard `if (filename)`. -/
def detectByFileName (filePath : String) : String :=
  let filename := fileNameOf filePath
  if filename = "" then "Other"
  else if filename = "dockerfile" then "Dockerfile"
  else if filename = "makefile" then "Makefile"
  else if filename = "cmakelists.txt" then "CMake"
  else if filename = "package.json" then "JSON"
  else if filename = "tsconfig.json" then "JSON"
  else if strIncludes filename "requirements.txt" then "Text"
  else if strIncludes filename ".env" then "Environment"
  else "Other"

/-- Embedding of `detectLanguageFromFile` (src/src/utils.ts lines 10-167). -/
def detectLanguageFromFile (filePath : String) : DetectResult :=
  if filePath = "" then .str "unknown"
  else
    match detectExtLookup filePath with
    | some v => v
    | none => .str (detectByFileName filePath)

/-- The special-filename cases of `detectLanguageFromFile` reached when the
extension lookup fails (src/src/utils.ts lines 155-164); an empty filename is
skipped by the JS truthiness guard `if (filename)`. -/
def specialFileName (fn : String) : Prop :=
  fn ≠ "" ∧
    (fn = "dockerfile" ∨ fn = "makefile" ∨ fn = "cmakelists.txt" ∨
     fn = "package.json" ∨ fn = "tsconfig.json" ∨
     strIncludes fn "requirements.txt" = true ∨ strIncludes fn ".env" = true)

instance (fn : String) : Decidable (specialFileName fn) := by
  unfold specialFileName
  infer_instance

/-- Embedding of `getIntensityLevel` (src/src/utils.ts lines 2889-2895), the heatmap
intensity step function of total minutes per day. -/
def getIntensityLevel (minutes : ℚ) : ℕ :=
  if minutes = 0 then 0
  else if minutes < 60 then 1
  else if minutes < 180 then 2
  else if minutes < 360 then 3
  else 4

/-- Loop state of the `for` loop of `calculateStreaks`
(src/src/utils.ts lines 2026-2074): the previous date (`null` before the
first iteration), `tempStreak`, `longestStreak`, `currentStreak`, and the
`yesterdayHasCoding` flag. -/
structure StreakState where
  prev : Option Int
  temp : ℕ
  longest : ℕ
  current : ℕ
  yhc : Bool
deriving DecidableEq

/-- Initial loop state of `calculateStreaks`. -/
def streakInit : StreakState :=
  { prev := none, temp := 0, longest := 0, current := 0, yhc := false }

/-- One iteration of the loop of `calculateStreaks`, at date `d`:
`diffDays` is `1` for the first element, else the day difference to the
previous date; a difference of exactly one day increments `tempStreak`,
anything else resets it to `1`; `longestStreak` takes the running maximum;
when the date is today or yesterday, `currentStreak` is set to `tempStreak`
and `yesterdayHasCoding` records a hit on yesterday. -/
def streakStep (today : Int) (s : StreakState) (d : Int) : StreakState :=
  let diff : Int :=
    match s.prev with
    | none => 1
    | some p => d - p
  let temp := if diff = 1 then s.temp + 1 else 1
  { prev := some d
    temp := temp
    longest := max s.longest temp
    current := if d = today ∨ d = today - 1 then temp else s.current
    yhc := s.yhc || d = today - 1 }

/-- Embedding of `Object.keys(dailyTotals).sort()` of `calculateStreaks`: the distinct
entry dates in ascending order.  (The values of `dailyTotals` are never read
by the streak loop, only its keys.) -/
def sortedDates (dates : List Int) : List Int :=
  List.insertionSort (· ≤ ·) dates.dedup

/-- Embedding of `calculateStreaks` (src/src/utils.ts lines 2026-2074).  Returns the pair
`(longestStreak, currentStreak)`.  After the loop, `currentStreak` is zeroed
unless today appears among the dates or `yesterdayHasCoding` was set. -/
def calculateStreaks (today : Int) (entries : List Entry) : ℕ × ℕ :=
  if entries.isEmpty then (0, 0)
  else
    let dates := sortedDates (entries.map (·.date))
    let s := dates.foldl (streakStep today) streakInit
    let current := if ¬ today ∈ dates ∧ ¬ s.yhc = true then 0 else s.current
    (s.longest, current)

/-- A run of `n` consecutive calendar dates starting at `a`, all of which
carry at least one entry (dates given as the list `D`).  This is the
specification-side notion of a streak. -/
def hasRun (D : List Int) (a : Int) (n : ℕ) : Prop :=
  ∀ k : ℕ, k < n → a + (k : Int) ∈ D

instance (D : List Int) (a : Int) (n : ℕ) : Decidable (hasRun D a n) := by
  unfold hasRun
  infer_instance

/-- Day of week of an embedded day number, `0 = Sunday` through
`6 = Saturday`; under the day count `toDays` below this agrees with
JavaScript `Date.prototype.getDay` (UTC). -/
def dowFin (d : Int) : Fin 7 :=
  ⟨(d % 7).toNat % 7, Nat.mod_lt _ (by norm_num)⟩

/-- The `dayNames` array of `calculateDayOfWeekStats`. -/
def dayNames : List String :=
  ["Sunday", "Monday", "Tuesday", "Wednesday", "Thursday", "Friday", "Saturday"]

/-- The `mostProductive` record returned by `calculateDayOfWeekStats`. -/
structure MostProductive where
  name : String
  avgTime : ℚ
  index : ℕ
deriving DecidableEq

/-- Result of `calculateDayOfWeekStats`. -/
structure DayOfWeekStats where
  days : List ℚ
  mostProductive : MostProductive
deriving DecidableEq

/-- Embedding of `Math.max(...l)` over a nonempty spread list (the empty case, which JS
maps to `-Infinity`, is unreachable here: the function below always passes a
seven-element list). -/
def listMax : List ℚ → ℚ
  | [] => 0
  | [a] => a
  | a :: b :: rest => max a (listMax (b :: rest))

/-- Embedding of `Array.prototype.indexOf` restricted to the reachable case in which the
element occurs in the list (the JS `-1` result for an absent element cannot
arise below, since `Math.max` of a list is a member of it). -/
def jsIndexOf : List ℚ → ℚ → ℕ
  | [], _ => 0
  | b :: rest, a => if b = a then 0 else jsIndexOf rest a + 1

/-- The `forEach` accumulation loop of `calculateDayOfWeekStats`: per-weekday
totals of `timeSpent` and per-weekday entry counts. -/
def dayAccum (entries : List Entry) : (Fin 7 → ℚ) × (Fin 7 → ℕ) :=
  entries.foldl
    (fun tc e =>
      let i := dowFin e.date
      (Function.update tc.1 i (tc.1 i + e.timeSpent),
       Function.update tc.2 i (tc.2 i + 1)))
    (fun _ => 0, fun _ => 0)

/-- Embedding of `calculateDayOfWeekStats` (src/src/utils.ts lines 2076-2102): averages
per weekday (`0` for weekdays without entries), and the most productive
weekday as the first index attaining `Math.max` of the averages. -/
def calculateDayOfWeekStats (entries : List Entry) : DayOfWeekStats :=
  let acc := dayAccum entries
  let dayAverages : List ℚ :=
    List.ofFn (fun i : Fin 7 => if 0 < acc.2 i then acc.1 i / (acc.2 i : ℚ) else 0)
  let maxAvg := listMax dayAverages
  let maxAvgIndex := jsIndexOf dayAverages maxAvg
  { days := dayAverages
    mostProductive :=
      { name := dayNames.getD maxAvgIndex ""
        avgTime := dayAverages.getD maxAvgIndex 0
        index := maxAvgIndex } }

/-- A Gregorian calendar date, the `(year, month, day)` components of the
JS `Date` values handled by the rollup functions (month `1`-based). -/
structure CalendarDate where
  year : ℕ
  month : ℕ
  day : ℕ
deriving DecidableEq

/-- Gregorian leap-year test. -/
def leapYear (y : ℕ) : Prop :=
  (y % 4 = 0 ∧ ¬ y % 100 = 0) ∨ y % 400 = 0

instance (y : ℕ) : Decidable (leapYear y) := by
  unfold leapYear
  infer_instance

/-- Number of days of month `m` of year `y` (months outside `1..12` do not
occur). -/
def daysInMonth (y m : ℕ) : ℕ :=
  if m = 2 then (if leapYear y then 29 else 28)
  else if m = 4 ∨ m = 6 ∨ m = 9 ∨ m = 11 then 30
  else 31

/-- Days of year `y` that precede month `m` (cumulative month table, with
the leap day included from March on). -/
def daysBeforeMonth (y m : ℕ) : ℕ :=
  (match m with
   | 1 => 0 | 2 => 31 | 3 => 59 | 4 => 90 | 5 => 120 | 6 => 151 | 7 => 181
   | 8 => 212 | 9 => 243 | 10 => 273 | 11 => 304 | 12 => 334 | _ => 0) +
  (if 3 ≤ m ∧ m ≤ 12 ∧ leapYear y then 1 else 0)

/-- Number of leap years strictly before year `y`. -/
def leapsBefore (y : ℕ) : ℕ :=
  (y - 1) / 4 - (y - 1) / 100 + (y - 1) / 400

/-- Day count of a calendar date: an affine day numbering under which date
differences in days and day-of-week computations agree with JS `Date`
arithmetic; `toDays d % 7` is the weekday with `0 = Sunday`. -/
def toDays (c : CalendarDate) : ℕ :=
  365 * c.year + leapsBefore c.year + daysBeforeMonth c.year c.month + (c.day - 1)

/-- Embedding of `Date.prototype.getDay` of a calendar date (`0 = Sunday`). -/
def dayOfWeekC (c : CalendarDate) : ℕ :=
  toDays c % 7

/-- A well-formed Gregorian date (years from 2 onward, so that the week
containing the date stays inside the supported range). -/
def ValidDate (c : CalendarDate) : Prop :=
  2 ≤ c.year ∧ 1 ≤ c.month ∧ c.month ≤ 12 ∧ 1 ≤ c.day ∧ c.day ≤ daysInMonth c.year c.month

instance (c : CalendarDate) : Decidable (ValidDate c) := by
  unfold ValidDate
  infer_instance

/-- Embedding of `new Date(now.getFullYear(), now.getMonth(), now.getDate() - now.getDay())`
from `getThisWeekTime` (src/src/utils.ts lines 2111-2120): the JS `Date`
constructor normalizes a nonpositive day-of-month by borrowing from the
previous month (and, in January, from December of the previous year). -/
def startOfWeek (c : CalendarDate) : CalendarDate :=
  let w := dayOfWeekC c
  if w < c.day then ⟨c.year, c.month, c.day - w⟩
  else if c.month = 1 then ⟨c.year - 1, 12, 31 + c.day - w⟩
  else ⟨c.year, c.month - 1, daysInMonth c.year (c.month - 1) + c.day - w⟩

/-- Sum of `timeSpent` over the entries with embedded day number in the
closed interval `[lo, hi]` (the string comparisons
`entry.date >= startStr && entry.date <= todayStr` of the rollup functions,
under the ISO-string/day-number bijection). -/
def periodSum (lo hi : Int) (entries : List Entry) : ℚ :=
  ((entries.filter fun e => lo ≤ e.date ∧ e.date ≤ hi).map (·.timeSpent)).sum

/-- Embedding of `getTodayTime` (src/src/utils.ts lines 2104-2109): sum of `timeSpent`
over entries whose date equals today. -/
def getTodayTime (today : Int) (entries : List Entry) : ℚ :=
  ((entries.filter fun e => e.date = today).map (·.timeSpent)).sum

/-- Embedding of `getThisWeekTime` (src/src/utils.ts lines 2111-2120): sum over entries
dated between the week's start (Sunday) and today, inclusive. -/
def getThisWeekTime (now : CalendarDate) (entries : List Entry) : ℚ :=
  periodSum (toDays (startOfWeek now)) (toDays now) entries

/-- Embedding of `getThisMonthTime` (src/src/utils.ts lines 2122-2131): sum over entries
dated between the first of the current month and today, inclusive. -/
def getThisMonthTime (now : CalendarDate) (entries : List Entry) : ℚ :=
  periodSum (toDays ⟨now.year, now.month, 1⟩) (toDays now) entries

/-- Embedding of `getThisYearTime` (src/src/utils.ts lines 2289-2298): sum over entries
dated between January 1 of the current year and today, inclusive. -/
def getThisYearTime (now : CalendarDate) (entries : List Entry) : ℚ :=
  periodSum (toDays ⟨now.year, 1, 1⟩) (toDays now) entries

/-- The worked example of the specification: one entry of time `t1 … t4` on
each of 2024-01-01, 2024-01-02, 2024-01-03 and 2024-01-05, and no other
dates (dates embedded through the day count `toDays`). -/
def exampleEntries (t1 t2 t3 t4 : ℚ) : List Entry :=
  [⟨(toDays ⟨2024, 1, 1⟩ : Int), t1⟩, ⟨(toDays ⟨2024, 1, 2⟩ : Int), t2⟩,
   ⟨(toDays ⟨2024, 1, 3⟩ : Int), t3⟩, ⟨(toDays ⟨2024, 1, 5⟩ : Int), t4⟩]

/-- Natural key of a persisted `TimeEntry`:
`(date, project, branch, language)`. -/
structure EntryKey where
  date : Int
  project : String
  branch : Option String
  language : Option String
deriving DecidableEq

/-- A persisted `TimeEntry` of the store: a key and accumulated minutes. -/
structure StoreEntry where
  key : EntryKey
  timeSpentMinutes : ℚ
deriving DecidableEq

/-- Modelled from the spec: the persisted store's
`mergeEntry(key, deltaMinutes)` (spec section 6; `database.ts` is not among
the provided sources).  Multiple flushes on the same key accumulate
additively; a new key is appended. -/
def mergeEntry : List StoreEntry → EntryKey → ℚ → List StoreEntry
  | [], k, d => [⟨k, d⟩]
  | e :: rest, k, d =>
    if e.key = k then ⟨k, e.timeSpentMinutes + d⟩ :: rest
    else e :: mergeEntry rest k d

/-- Sum of all persisted minutes for one calendar date. -/
def dateTotal (store : List StoreEntry) (day : Int) : ℚ :=
  ((store.filter fun e => e.key.date = day).map (·.timeSpentMinutes)).sum

/-- Modelled from the spec: committing one delta through the flush path's
validation (spec sections 3, 7(b) and 8; `database.ts`/`timeTracker.ts` are
not among the provided sources).  A delta outside `[0, 1440]`, or one that
would push the date's total beyond 1440 minutes, is rejected — the store is
left unchanged — rather than clamped. -/
def commitDelta (store : List StoreEntry) (k : EntryKey) (delta : ℚ) : List StoreEntry :=
  if delta < 0 ∨ 1440 < delta ∨ 1440 < dateTotal store k.date + delta then store
  else mergeEntry store k delta

/-- Commit a sequence of deltas in order. -/
def commitAll (store : List StoreEntry) (ds : List (EntryKey × ℚ)) : List StoreEntry :=
  ds.foldl (fun st p => commitDelta st p.1 p.2) store

/-- The persisted entries carrying a given key. -/
def entriesFor (k : EntryKey) (store : List StoreEntry) : List StoreEntry :=
  store.filter fun e => e.key = k

/-- Merge a sequence of deltas for one fixed key in order. -/
def applyMerges (store : List StoreEntry) (k : EntryKey) (ds : List ℚ) : List StoreEntry :=
  ds.foldl (fun st d => mergeEntry st k d) store

/-- The two session states of the tracker's state machine (spec section
4.2). -/
inductive Phase
  | active
  | paused
deriving DecidableEq

/-- Modelled from the spec: the in-memory `Session` of the state machine
(spec section 3; `timeTracker.ts` is not among the provided sources).
Timestamps are integer milliseconds, as produced by `Date.now()`. -/
structure Session where
  phase : Phase
  lastActivityAt : Int
  focused : Bool
  lastFocusLostAt : Option Int
deriving DecidableEq

/-- Events consumed by the session state machine: activity signals
(edit/cursor), scheduler ticks that evaluate the timeout conditions, and
focus changes. -/
inductive TEvent
  | activity (t : Int)
  | tick (t : Int)
  | focusGained (t : Int)
  | focusLost (t : Int)
deriving DecidableEq

/-- Timestamp of an event. -/
def evTime : TEvent → Int
  | .activity t => t
  | .tick t => t
  | .focusGained t => t
  | .focusLost t => t

/-- Modelled from the spec: one step of the session state machine (spec
sections 4.2 and 8).  An activity signal stamps `lastActivityAt` and
(re)enters `Active`; a tick pauses when the editor is focused and more than
`inactivityTimeout` has elapsed since the last activity (the boundary itself
is inclusive for `Active`, per the scenario in spec section 8), or when focus
has been lost for more than `focusTimeout`; focus events only toggle the
focus bookkeeping. -/
def stepEvent (inactivityTimeout focusTimeout : Int) (s : Session) : TEvent → Session
  | .activity t => { s with phase := .active, lastActivityAt := t }
  | .focusGained _ => { s with focused := true, lastFocusLostAt := none }
  | .focusLost t => { s with focused := false, lastFocusLostAt := some t }
  | .tick t =>
    if s.phase = .active ∧ s.focused = true ∧ inactivityTimeout < t - s.lastActivityAt then
      { s with phase := .paused }
    else if s.phase = .active ∧ s.focused = false ∧
        (match s.lastFocusLostAt with
         | some f => decide (focusTimeout < t - f)
         | none => false) = true then
      { s with phase := .paused }
    else s

/-- Whether the session stays in `Active` through an entire event sequence
(checked before every step and after the last). -/
def remainsActive (inactivityTimeout focusTimeout : Int) : Session → List TEvent → Bool
  | s, [] => decide (s.phase = .active)
  | s, e :: rest =>
    decide (s.phase = .active) &&
      remainsActive inactivityTimeout focusTimeout (stepEvent inactivityTimeout focusTimeout s e) rest

/-- Timestamps are nondecreasing along the sequence, starting from `t0`. -/
def chron (t0 : Int) : List TEvent → Bool
  | [] => true
  | e :: rest => decide (t0 ≤ evTime e) && chron (evTime e) rest

/-- The sequence consists of activity signals and ticks only, and every
activity signal arrives strictly less than `iT` after the previous activity
signal (`la` being the time of the last activity before the sequence). -/
def gapsOK (iT : Int) : Int → List TEvent → Bool
  | _, [] => true
  | la, .activity t :: rest => decide (t - la < iT) && gapsOK iT t rest
  | la, .tick _ :: rest => gapsOK iT la rest
  | _, .focusGained _ :: _ => false
  | _, .focusLost _ :: _ => false

/-- The sequence contains at least one activity signal. -/
def hasActivity : List TEvent → Bool
  | [] => false
  | .activity _ :: _ => true
  | _ :: rest => hasActivity rest

/-- The sequence ends with an activity signal (so every tick lies inside the
span of the signal sequence). -/
def endsWithActivity : List TEvent → Bool
  | [] => false
  | [e] =>
    match e with
    | .activity _ => true
    | _ => false
  | _ :: e :: rest => endsWithActivity (e :: rest)

/-! ## Helper lemmas -/

theorem languageMap_values_nonempty : ∀ p ∈ languageMap, p.2 ≠ "" := by decide

theorem lookup_mem {α β : Type} [BEq α] {a : α} {b : β} :
    ∀ {l : List (α × β)}, List.lookup a l = some b → ∃ x, (x, b) ∈ l := by
  intro l
  induction l with
  | nil => intro h; simp [List.lookup] at h
  | cons p t ih =>
    obtain ⟨k, v⟩ := p
    intro h
    rw [List.lookup] at h
    cases hak : a == k
    · rw [hak] at h
      obtain ⟨x, hx⟩ := ih h
      exact ⟨x, List.mem_cons_of_mem _ hx⟩
    · rw [hak] at h
      injection h with hv
      exact ⟨k, by rw [← hv]; exact List.mem_cons_self _ _⟩

theorem detectByFileName_ne_empty (s : String) : detectByFileName s ≠ "" := by
  simp only [detectByFileName]
  split_ifs <;> decide

theorem detectByFileName_other (s : String) (h : ¬ specialFileName (fileNameOf s)) :
    detectByFileName s = "Other" := by
  unfold detectByFileName
  by_cases hfn : fileNameOf s = ""
  · simp [hfn]
  · have hsp :
        ¬ (fileNameOf s = "dockerfile" ∨ fileNameOf s = "makefile" ∨
           fileNameOf s = "cmakelists.txt" ∨ fileNameOf s = "package.json" ∨
           fileNameOf s = "tsconfig.json" ∨
           strIncludes (fileNameOf s) "requirements.txt" = true ∨
           strIncludes (fileNameOf s) ".env" = true) :=
      fun hd => h ⟨hfn, hd⟩
    push_neg at hsp
    obtain ⟨n1, n2, n3, n4, n5, n6, n7⟩ := hsp
    simp only [if_neg hfn, if_neg n1, if_neg n2, if_neg n3, if_neg n4, if_neg n5]
    rw [if_neg (by simpa using n6), if_neg (by simpa using n7)]

/-! ## Claim theorems: formatting, language detection, intensity -/

/-- Claim C3: the heatmap intensity level `getIntensityLevel` is a pure step
function of total minutes per day: 0 minutes map to level 0, minutes in
(0,60) to level 1, in [60,180) to level 2, in [180,360) to level 3, and in
[360,∞) to level 4. -/
theorem c3_intensity_level (m : ℚ) :
    (m = 0 → getIntensityLevel m = 0) ∧
    (0 < m → m < 60 → getIntensityLevel m = 1) ∧
    (60 ≤ m → m < 180 → getIntensityLevel m = 2) ∧
    (180 ≤ m → m < 360 → getIntensityLevel m = 3) ∧
    (360 ≤ m → getIntensityLevel m = 4) := by
  unfold getIntensityLevel
  refine ⟨fun h => ?_, fun h1 h2 => ?_, fun h1 h2 => ?_, fun h1 h2 => ?_, fun h1 => ?_⟩ <;>
    split_ifs <;> first | rfl | linarith

/-- Witness for C3 at 90 minutes (level 2). -/
theorem c3_witness :
    (60 : ℚ) ≤ 90 ∧ (90 : ℚ) < 180 ∧ getIntensityLevel 90 = 2 :=
  ⟨by decide, by decide, (c3_intensity_level 90).2.2.1 (by decide) (by decide)⟩

/-- Claim C9: `formatTime` does not always produce a normalized
hours/minutes pair: at 59.5 minutes it renders `"0h 60m"` (the minutes
remainder is rounded independently of the floored hours), not `"1h 0m"`. -/
theorem c9_formatTime_sixty_minutes :
    formatTime (119 / 2) = "0h 60m" ∧ formatTime (119 / 2) ≠ "1h 0m" := by
  have hfloor : ⌊(119 / 2 : ℚ) / 60⌋ = 0 := by
    rw [Int.floor_eq_iff]
    norm_num
  have htr : ratTrunc ((119 / 2 : ℚ) / 60) = 0 := by
    unfold ratTrunc
    rw [if_pos (by norm_num)]
    exact hfloor
  have hrem : jsRem (119 / 2) 60 = 119 / 2 := by
    unfold jsRem
    rw [htr]
    norm_num
  have hround : jsRound ((119 : ℚ) / 2) = 60 := by
    unfold jsRound
    have h60 : (119 / 2 : ℚ) + 1 / 2 = ((60 : ℤ) : ℚ) := by norm_num
    rw [h60, Int.floor_intCast]
  constructor
  · simp only [formatTime, hfloor, hrem, hround]
    decide
  · simp only [formatTime, hfloor, hrem, hround]
    decide

theorem detectExtLookup_eq_str (s lang : String) :
    detectExtLookup s = some (.str lang) ↔
      extOf s ≠ "" ∧ List.lookup (extOf s) languageMap = some lang := by
  unfold detectExtLookup
  by_cases hext : extOf s = ""
  · simp [hext]
  · rw [if_neg hext]
    cases hlk : List.lookup (extOf s) languageMap with
    | some l => simp [hext]
    | none =>
      by_cases hp : extOf s ∈ protoProps
      · simp [hp, hext]
      · simp [hp, hext]

theorem detectExtLookup_proto (s : String) (h1 : extOf s ∈ protoProps)
    (h2 : List.lookup (extOf s) languageMap = none) :
    detectExtLookup s = some (.protoMember (extOf s)) := by
  have hne : extOf s ≠ "" := by
    intro h
    rw [h] at h1
    simp [protoProps] at h1
  unfold detectExtLookup
  rw [if_neg hne, h2]
  simp [h1]

/-- Counterexample to claim C10 as stated: at the path `"a.constructor"` the
lowercased extension `"constructor"` is not an own key of `languageMap`, but
it names an inherited `Object.prototype` member, so the truthy guard
`if (extension && languageMap[extension])` passes and the function returns
the inherited `Object` constructor — a function, not a nonempty
language-name string (likewise `"__proto__"`). -/
theorem c10_counterexample :
    detectLanguageFromFile "a.constructor" = DetectResult.protoMember "constructor" ∧
    (detectLanguageFromFile "a.constructor").isStr = false := by
  constructor
  · decide
  · decide

/-- Claim C10 (amended): `detectLanguageFromFile` is total and never raises,
and it returns a nonempty language-name string for every path except those
whose lowercased extension names an inherited `Object.prototype` member:
every string it returns is nonempty; the empty path yields `"unknown"`; a
mapped extension yields the mapped language; an extension naming an
inherited prototype member (`"constructor"` or `"__proto__"`, with no own
key) yields that inherited member, which is a function or object rather than
a language name; and any other path with no recognized special filename
yields `"Other"`. -/
theorem c10_detect_language_total (s : String) :
    (∀ lang, detectLanguageFromFile s = .str lang → lang ≠ "") ∧
    (s = "" → detectLanguageFromFile s = .str "unknown") ∧
    (∀ lang, s ≠ "" → detectExtLookup s = some (.str lang) →
      detectLanguageFromFile s = .str lang) ∧
    (s ≠ "" → extOf s ∈ protoProps → List.lookup (extOf s) languageMap = none →
      detectLanguageFromFile s = .protoMember (extOf s)) ∧
    (s ≠ "" → detectExtLookup s = none → ¬ specialFileName (fileNameOf s) →
      detectLanguageFromFile s = .str "Other") := by
  by_cases hs : s = ""
  · subst hs
    refine ⟨?_, fun _ => by decide, fun lang hs' _ => absurd rfl hs',
      fun hs' _ _ => absurd rfl hs', fun hs' _ _ => absurd rfl hs'⟩
    intro lang hl
    have h0 : detectLanguageFromFile "" = DetectResult.str "unknown" := by decide
    rw [h0] at hl
    injection hl with h
    rw [← h]
    decide
  · have hbody :
        detectLanguageFromFile s =
          match detectExtLookup s with
          | some v => v
          | none => DetectResult.str (detectByFileName s) := by
      simp [detectLanguageFromFile, hs]
    cases hlk : detectExtLookup s with
    | some v =>
      have hval : detectLanguageFromFile s = v := by rw [hbody, hlk]
      refine ⟨?_, fun h => absurd h hs, ?_, ?_, ?_⟩
      · intro lang hl
        rw [hval] at hl
        subst hl
        have hlk' := (detectExtLookup_eq_str s lang).mp hlk
        obtain ⟨x, hx⟩ := lookup_mem hlk'.2
        exact languageMap_values_nonempty (x, lang) hx
      · intro lang _ hl
        rw [hval]
        exact Option.some.inj hl
      · intro _ h1 h2
        have hp := detectExtLookup_proto s h1 h2
        rw [hval]
        exact Option.some.inj (hlk.symm.trans hp)
      · intro _ hl _
        exact Option.noConfusion hl
    | none =>
      have hval : detectLanguageFromFile s = .str (detectByFileName s) := by
        rw [hbody, hlk]
      refine ⟨?_, fun h => absurd h hs, fun lang _ hl => Option.noConfusion hl, ?_, ?_⟩
      · intro lang hl
        rw [hval] at hl
        injection hl with h
        rw [← h]
        exact detectByFileName_ne_empty s
      · intro _ h1 h2
        exact Option.noConfusion (hlk.symm.trans (detectExtLookup_proto s h1 h2))
      · intro _ _ hspec
        rw [hval, detectByFileName_other s hspec]

/-- Witness for the amended C10 at the path `"a.py"` (maps to `"Python"`). -/
theorem c10_witness :
    ("a.py" : String) ≠ "" ∧ detectExtLookup "a.py" = some (.str "Python") ∧
    detectLanguageFromFile "a.py" = .str "Python" :=
  ⟨by decide, by decide,
   (c10_detect_language_total "a.py").2.2.1 "Python" (by decide) (by decide)⟩

/-! ## Claim C1: the worked streak example -/

theorem streakFold_today_indep (ds : List Int) (t1 t2 : Int) (s1 s2 : StreakState)
    (hp : s1.prev = s2.prev) (ht : s1.temp = s2.temp) (hl : s1.longest = s2.longest) :
    (ds.foldl (streakStep t1) s1).prev = (ds.foldl (streakStep t2) s2).prev ∧
    (ds.foldl (streakStep t1) s1).temp = (ds.foldl (streakStep t2) s2).temp ∧
    (ds.foldl (streakStep t1) s1).longest = (ds.foldl (streakStep t2) s2).longest := by
  induction ds generalizing s1 s2 with
  | nil => exact ⟨hp, ht, hl⟩
  | cons d rest ih =>
    apply ih <;> simp [streakStep, hp, ht, hl]

theorem exampleEntries_dates (t1 t2 t3 t4 : ℚ) :
    (exampleEntries t1 t2 t3 t4).map (·.date) = [(739250 : Int), 739251, 739252, 739254] := by
  simp only [exampleEntries, List.map]
  decide

/-- Claim C1: on the specification's worked example — entries with nonzero
time on 2024-01-01, 2024-01-02, 2024-01-03 and 2024-01-05 and no other dates
— `calculateStreaks` returns a longest streak of 3 (for any value of today),
and a current streak of 1 when today is 2024-01-05. -/
theorem c1_streak_example (t1 t2 t3 t4 : ℚ)
    (h1 : t1 ≠ 0) (h2 : t2 ≠ 0) (h3 : t3 ≠ 0) (h4 : t4 ≠ 0) :
    (∀ today : Int, (calculateStreaks today (exampleEntries t1 t2 t3 t4)).1 = 3) ∧
    (calculateStreaks (toDays ⟨2024, 1, 5⟩ : Int) (exampleEntries t1 t2 t3 t4)).2 = 1 := by
  have hne : (exampleEntries t1 t2 t3 t4).isEmpty = false := rfl
  have hsd : sortedDates [(739250 : Int), 739251, 739252, 739254] =
      [739250, 739251, 739252, 739254] := by decide
  have hfst : ∀ today : Int,
      calculateStreaks today (exampleEntries t1 t2 t3 t4) =
        (let dates := [(739250 : Int), 739251, 739252, 739254]
         let s := dates.foldl (streakStep today) streakInit
         (s.longest, if ¬ today ∈ dates ∧ ¬ s.yhc = true then 0 else s.current)) := by
    intro today
    simp only [calculateStreaks, hne, Bool.false_eq_true, if_false,
      exampleEntries_dates, hsd]
  constructor
  · intro today
    rw [hfst today]
    have hind := streakFold_today_indep [(739250 : Int), 739251, 739252, 739254]
      today 739254 streakInit streakInit rfl rfl rfl
    exact hind.2.2.trans (by decide)
  · have h5 : (toDays ⟨2024, 1, 5⟩ : Int) = 739254 := by decide
    rw [h5, hfst 739254]
    decide

/-- Witness for C1 with all four times equal to 60 minutes. -/
theorem c1_witness :
    ((60 : ℚ) ≠ 0) ∧
    (calculateStreaks (toDays ⟨2024, 1, 5⟩ : Int) (exampleEntries 60 60 60 60)).1 = 3 ∧
    (calculateStreaks (toDays ⟨2024, 1, 5⟩ : Int) (exampleEntries 60 60 60 60)).2 = 1 :=
  ⟨by decide,
   (c1_streak_example 60 60 60 60 (by decide) (by decide) (by decide) (by decide)).1 _,
   (c1_streak_example 60 60 60 60 (by decide) (by decide) (by decide) (by decide)).2⟩

/-! ## Claim C2: streak semantics in general -/

theorem sortedDates_sorted (l : List Int) : List.Pairwise (· < ·) (sortedDates l) := by
  have hs : List.Sorted (· ≤ ·) (List.insertionSort (· ≤ ·) l.dedup) :=
    List.sorted_insertionSort _ _
  have hnd : (List.insertionSort (· ≤ ·) l.dedup).Nodup :=
    (List.perm_insertionSort (· ≤ ·) l.dedup).nodup_iff.mpr l.nodup_dedup
  exact (hs.and hnd).imp fun h => lt_of_le_of_ne h.1 h.2

theorem sortedDates_mem (l : List Int) (d : Int) : d ∈ sortedDates l ↔ d ∈ l := by
  unfold sortedDates
  rw [(List.perm_insertionSort (· ≤ ·) l.dedup).mem_iff, List.mem_dedup]

theorem sorted_le_getLast :
    ∀ (l : List Int) (p : Int), List.Pairwise (· < ·) l → l.getLast? = some p →
      ∀ x ∈ l, x ≤ p := by
  intro l
  induction l with
  | nil => intro p _ h; simp at h
  | cons a t ih =>
    intro p hp hl x hx
    cases t with
    | nil =>
      simp only [List.getLast?_singleton, Option.some.injEq] at hl
      rcases List.mem_singleton.mp hx with rfl
      omega
    | cons b t' =>
      rw [List.getLast?_cons_cons] at hl
      have hpmem : p ∈ b :: t' := List.mem_of_mem_getLast? hl
      rcases List.mem_cons.mp hx with rfl | hx'
      · exact le_of_lt (List.rel_of_pairwise_cons hp hpmem)
      · exact ih p hp.of_cons hl x hx'

/-- Invariant of the streak loop over a strictly sorted date list `ds` with
last element `d`: `tempStreak` measures the consecutive run ending at `d`,
`longestStreak` is the optimum over `ds`, and the `currentStreak` and
`yesterdayHasCoding` fields reflect only hits on today or yesterday. -/
def StreakInv (today : Int) (ds : List Int) (d : Int) (s : StreakState) : Prop :=
  s.prev = some d ∧
  1 ≤ s.temp ∧
  (∀ k : ℕ, k < s.temp → d - (k : Int) ∈ ds) ∧
  d - (s.temp : Int) ∉ ds ∧
  1 ≤ s.longest ∧
  (∃ a : Int, hasRun ds a s.longest) ∧
  (∀ (a : Int) (n : ℕ), hasRun ds a n → n ≤ s.longest) ∧
  (s.current ≠ 0 → today ∈ ds ∨ today - 1 ∈ ds) ∧
  (s.yhc = true → today - 1 ∈ ds)

theorem streakInv_step (today : Int) (l : List Int) (p d : Int) (s : StreakState)
    (hpw : List.Pairwise (· < ·) l) (hl : l.getLast? = some p)
    (hlt : ∀ x ∈ l, x < d) (hinv : StreakInv today l p s) :
    StreakInv today (l ++ [d]) d (streakStep today s d) := by
  obtain ⟨hprev, htemp1, hrunT, hnoT, hlong1, ⟨a0, ha0⟩, hmax, hcur, hyhc⟩ := hinv
  have hp_mem : p ∈ l := List.mem_of_mem_getLast? hl
  have hpd : p < d := hlt p hp_mem
  have hle_p : ∀ x ∈ l, x ≤ p := sorted_le_getLast l p hpw hl
  by_cases hdiff : d - p = (1 : ℤ)
  · have hs' : streakStep today s d =
        { prev := some d, temp := s.temp + 1, longest := max s.longest (s.temp + 1),
          current := if d = today ∨ d = today - 1 then s.temp + 1 else s.current,
          yhc := s.yhc || decide (d = today - 1) } := by
      simp [streakStep, hprev, hdiff]
    rw [hs']
    unfold StreakInv
    dsimp only
    refine ⟨rfl, by omega, ?_, ?_, ?_, ?_, ?_, ?_, ?_⟩
    · -- run ending at d has length temp + 1
      intro k hk
      match k with
      | 0 => simp
      | (j + 1) =>
        have hj : j < s.temp := by omega
        have heq : d - ((j + 1 : ℕ) : Int) = p - (j : Int) := by push_cast; omega
        rw [heq]
        exact List.mem_append_left _ (hrunT j hj)
    · -- maximality of the run ending at d
      intro hmem
      rcases List.mem_append.mp hmem with h | h
      · have heq : d - ((s.temp + 1 : ℕ) : Int) = p - (s.temp : Int) := by push_cast; omega
        rw [heq] at h
        exact hnoT h
      · have := List.mem_singleton.mp h
        omega
    · exact le_trans hlong1 (le_max_left _ _)
    · -- a witness run for the new longest
      rcases le_total (s.temp + 1) s.longest with hc | hc
      · refine ⟨a0, fun k hk => ?_⟩
        rw [max_eq_left hc] at hk
        exact List.mem_append_left _ (ha0 k hk)
      · refine ⟨d - (s.temp : Int), fun k hk => ?_⟩
        rw [max_eq_right hc] at hk
        have heq : d - (s.temp : Int) + (k : Int) = d - ((s.temp - k : ℕ) : Int) := by
          omega
        rcases Nat.lt_or_ge k s.temp with hks | hks
        · rw [heq]
          have : (s.temp - k : ℕ) < s.temp + 1 := by omega
          -- d - (temp - k) with temp - k ≤ temp is in the extended run
          match hmk : (s.temp - k : ℕ) with
          | 0 => simp_all
          | (j + 1) =>
            have hj : j < s.temp := by omega
            have heq2 : d - ((j + 1 : ℕ) : Int) = p - (j : Int) := by push_cast; omega
            rw [heq2]
            exact List.mem_append_left _ (hrunT j hj)
        · have hk0 : k = s.temp := by omega
          subst hk0
          simp
    · -- every run in l ++ [d] is bounded by the new longest
      intro a n hr
      rcases Nat.eq_zero_or_pos n with rfl | hn1
      · exact Nat.zero_le _
      by_cases hd_in : ∃ j : ℕ, j < n ∧ a + (j : Int) = d
      · obtain ⟨j, hj, haj⟩ := hd_in
        have hj_top : j = n - 1 := by
          by_contra hne
          have hj1 : j + 1 < n := by omega
          have hmem := hr (j + 1) hj1
          rcases List.mem_append.mp hmem with h | h
          · have := hlt _ h
            push_cast at this
            omega
          · have := List.mem_singleton.mp h
            push_cast at this
            omega
        refine le_trans ?_ (le_max_right s.longest (s.temp + 1))
        by_contra hgt
        push_neg at hgt
        have hk : (n - 1 - (s.temp + 1) : ℕ) < n := by omega
        have hmem := hr (n - 1 - (s.temp + 1)) hk
        have heq : a + ((n - 1 - (s.temp + 1) : ℕ) : Int) = d - ((s.temp + 1 : ℕ) : Int) := by
          omega
        rw [heq] at hmem
        rcases List.mem_append.mp hmem with h | h
        · have heq2 : d - ((s.temp + 1 : ℕ) : Int) = p - (s.temp : Int) := by push_cast; omega
          rw [heq2] at h
          exact hnoT h
        · have := List.mem_singleton.mp h
          push_cast at this
          omega
      · have hrl : hasRun l a n := by
          intro k hk
          have hm := hr k hk
          rcases List.mem_append.mp hm with h | h
          · exact h
          · exact absurd ⟨k, hk, List.mem_singleton.mp h⟩ hd_in
        exact le_trans (hmax a n hrl) (le_max_left _ _)
    · -- current is nonzero only with a hit on today or yesterday
      intro hc
      by_cases hhit : d = today ∨ d = today - 1
      · rcases hhit with rfl | hy
        · exact Or.inl (List.mem_append_right _ (List.mem_singleton.mpr rfl))
        · exact Or.inr (by rw [← hy]; exact List.mem_append_right _ (List.mem_singleton.mpr rfl))
      · rw [if_neg hhit] at hc
        rcases hcur hc with h | h
        · exact Or.inl (List.mem_append_left _ h)
        · exact Or.inr (List.mem_append_left _ h)
    · -- yesterdayHasCoding only with a hit on yesterday
      intro hy
      rcases Bool.or_eq_true_iff.mp hy with h | h
      · exact List.mem_append_left _ (hyhc h)
      · have := of_decide_eq_true h
        exact List.mem_append_right _ (by rw [← this]; exact List.mem_singleton.mpr rfl)
  · have hs' : streakStep today s d =
        { prev := some d, temp := 1, longest := max s.longest 1,
          current := if d = today ∨ d = today - 1 then 1 else s.current,
          yhc := s.yhc || decide (d = today - 1) } := by
      simp [streakStep, hprev, hdiff]
    rw [hs']
    unfold StreakInv
    dsimp only
    refine ⟨rfl, le_refl _, ?_, ?_, ?_, ?_, ?_, ?_, ?_⟩
    · intro k hk
      have hk0 : k = 0 := by omega
      subst hk0
      simp
    · intro hmem
      rcases List.mem_append.mp hmem with h | h
      · have h1 := hle_p _ h
        omega
      · have := List.mem_singleton.mp h
        omega
    · exact le_trans hlong1 (le_max_left _ _)
    · refine ⟨a0, fun k hk => ?_⟩
      rw [max_eq_left (by omega)] at hk
      exact List.mem_append_left _ (ha0 k hk)
    · intro a n hr
      rcases Nat.eq_zero_or_pos n with rfl | hn1
      · exact Nat.zero_le _
      by_cases hd_in : ∃ j : ℕ, j < n ∧ a + (j : Int) = d
      · obtain ⟨j, hj, haj⟩ := hd_in
        have hj_top : j = n - 1 := by
          by_contra hne
          have hj1 : j + 1 < n := by omega
          have hmem := hr (j + 1) hj1
          rcases List.mem_append.mp hmem with h | h
          · have := hlt _ h
            push_cast at this
            omega
          · have := List.mem_singleton.mp h
            push_cast at this
            omega
        refine le_trans ?_ (le_max_right s.longest 1)
        by_contra hgt
        push_neg at hgt
        have hk : (n - 2 : ℕ) < n := by omega
        have hmem := hr (n - 2) hk
        have heq : a + ((n - 2 : ℕ) : Int) = d - 1 := by
          omega
        rw [heq] at hmem
        rcases List.mem_append.mp hmem with h | h
        · have h1 := hle_p _ h
          omega
        · have := List.mem_singleton.mp h
          omega
      · have hrl : hasRun l a n := by
          intro k hk
          have hm := hr k hk
          rcases List.mem_append.mp hm with h | h
          · exact h
          · exact absurd ⟨k, hk, List.mem_singleton.mp h⟩ hd_in
        exact le_trans (hmax a n hrl) (le_max_left _ _)
    · intro hc
      by_cases hhit : d = today ∨ d = today - 1
      · rcases hhit with rfl | hy
        · exact Or.inl (List.mem_append_right _ (List.mem_singleton.mpr rfl))
        · exact Or.inr (by rw [← hy]; exact List.mem_append_right _ (List.mem_singleton.mpr rfl))
      · rw [if_neg hhit] at hc
        rcases hcur hc with h | h
        · exact Or.inl (List.mem_append_left _ h)
        · exact Or.inr (List.mem_append_left _ h)
    · intro hy
      rcases Bool.or_eq_true_iff.mp hy with h | h
      · exact List.mem_append_left _ (hyhc h)
      · have := of_decide_eq_true h
        exact List.mem_append_right _ (by rw [← this]; exact List.mem_singleton.mpr rfl)

theorem streakFold_inv (today : Int) :
    ∀ (ds : List Int) (d : Int), List.Pairwise (· < ·) ds → ds.getLast? = some d →
      StreakInv today ds d (ds.foldl (streakStep today) streakInit) := by
  intro ds
  induction ds using List.reverseRecOn with
  | nil => intro d _ h; simp at h
  | append_singleton l d' ih =>
    intro d hpw hlast
    rw [List.getLast?_concat] at hlast
    injection hlast with hd
    subst hd
    rw [List.foldl_concat]
    cases hl0 : l with
    | nil =>
      subst hl0
      have hstep : streakStep today streakInit d' =
          { prev := some d', temp := 1, longest := 1,
            current := if d' = today ∨ d' = today - 1 then 1 else 0,
            yhc := false || decide (d' = today - 1) } := by
        simp [streakStep, streakInit]
      simp only [List.foldl_nil, List.nil_append, hstep]
      unfold StreakInv
      dsimp only
      refine ⟨rfl, le_refl _, ?_, ?_, le_refl _, ?_, ?_, ?_, ?_⟩
      · intro k hk
        have hk0 : k = 0 := by omega
        subst hk0
        simp
      · intro h
        have := List.mem_singleton.mp h
        omega
      · refine ⟨d', fun k hk => ?_⟩
        have hk0 : k = 0 := by omega
        subst hk0
        simp
      · intro a n hr
        by_contra hgt
        push_neg at hgt
        have h0 := List.mem_singleton.mp (hr 0 (by omega))
        have h1 := List.mem_singleton.mp (hr 1 (by omega))
        push_cast at h0 h1
        omega
      · intro hc
        by_cases hhit : d' = today ∨ d' = today - 1
        · rcases hhit with rfl | hy
          · exact Or.inl (List.mem_singleton.mpr rfl)
          · exact Or.inr (by rw [← hy]; exact List.mem_singleton.mpr rfl)
        · rw [if_neg hhit] at hc
          exact absurd rfl hc
      · intro hy
        rcases Bool.or_eq_true_iff.mp hy with h | h
        · exact absurd h (by simp)
        · have := of_decide_eq_true h
          exact (by rw [← this]; exact List.mem_singleton.mpr rfl)
    | cons x l' =>
      rw [← hl0]
      have hlne : l ≠ [] := by rw [hl0]; exact List.cons_ne_nil _ _
      cases hlp : l.getLast? with
      | none =>
        exact absurd (List.getLast?_eq_none_iff.mp hlp) hlne
      | some p =>
        have hpw_l : List.Pairwise (· < ·) l := (List.pairwise_append.mp hpw).1
        have hlt : ∀ x ∈ l, x < d' := by
          intro y hy
          exact (List.pairwise_append.mp hpw).2.2 y hy d' (List.mem_singleton.mpr rfl)
        exact streakInv_step today l p d' _ hpw_l hlp hlt (ih p hpw_l hlp)

/-- Counterexample to claim C2 as stated: a date all of whose entries have
`timeSpent = 0` still extends the streak.  With one zero-time entry on day 0
and one nonzero entry on day 1 (today being day 100), the claimed longest
streak is 1 (only day 1 has nonzero time), but `calculateStreaks` reports 2:
the code keys streaks on `dailyTotals` dates without filtering zero totals. -/
theorem c2_counterexample :
    calculateStreaks 100 [⟨0, 0⟩, ⟨1, 5⟩] = (2, 0) ∧ (2 : ℕ) ≠ 1 := by
  constructor
  · decide
  · decide

/-- Claim C2 (amended): for every nonempty entry list, `calculateStreaks`
depends only on the list of entry dates — so a date all of whose entries have
zero `timeSpent` counts as tracked; the longest streak returned is exactly
the length of the longest run of consecutive calendar dates each carrying at
least one entry (consecutive meaning one day apart among the sorted distinct
dates, a gap breaking the run); and the current streak is nonzero only if
some tracked date (not necessarily the most recent one) is today or
yesterday. -/
theorem c2_streak_semantics (today : Int) (entries : List Entry)
    (hne : entries ≠ []) :
    (∀ entries' : List Entry, entries'.map (·.date) = entries.map (·.date) →
      calculateStreaks today entries' = calculateStreaks today entries) ∧
    (∃ a : Int, hasRun (entries.map (·.date)) a (calculateStreaks today entries).1) ∧
    (∀ (a : Int) (n : ℕ), hasRun (entries.map (·.date)) a n →
      n ≤ (calculateStreaks today entries).1) ∧
    ((calculateStreaks today entries).2 ≠ 0 →
      today ∈ entries.map (·.date) ∨ today - 1 ∈ entries.map (·.date)) := by
  have hie : entries.isEmpty = false := by
    cases entries with
    | nil => exact absurd rfl hne
    | cons _ _ => rfl
  have hmemds : ∀ x : Int,
      x ∈ sortedDates (entries.map (·.date)) ↔ x ∈ entries.map (·.date) :=
    fun x => sortedDates_mem (entries.map (·.date)) x
  have hDne : entries.map (·.date) ≠ [] := by
    intro h
    exact hne (List.map_eq_nil_iff.mp h)
  have hdsne : sortedDates (entries.map (·.date)) ≠ [] := by
    obtain ⟨x, hx⟩ := List.exists_mem_of_ne_nil _ hDne
    exact List.ne_nil_of_mem ((hmemds x).mpr hx)
  cases hdl : (sortedDates (entries.map (·.date))).getLast? with
  | none => exact absurd (List.getLast?_eq_none_iff.mp hdl) hdsne
  | some dlast =>
    obtain ⟨hprev, htemp1, hrunT, hnoT, hlong1, hex, hmax, hcur, hyhc⟩ :=
      streakFold_inv today (sortedDates (entries.map (·.date))) dlast
        (sortedDates_sorted _) hdl
    have hcal : calculateStreaks today entries =
        (((sortedDates (entries.map (·.date))).foldl (streakStep today) streakInit).longest,
         if ¬ today ∈ sortedDates (entries.map (·.date)) ∧
             ¬ ((sortedDates (entries.map (·.date))).foldl
                 (streakStep today) streakInit).yhc = true then 0
         else ((sortedDates (entries.map (·.date))).foldl
             (streakStep today) streakInit).current) := by
      simp only [calculateStreaks, hie, Bool.false_eq_true, if_false]
    refine ⟨?_, ?_, ?_, ?_⟩
    · intro e' he'
      have h1 : e' ≠ [] := by
        intro h
        rw [h] at he'
        exact hDne he'.symm
      have hie' : e'.isEmpty = false := by
        cases e' with
        | nil => exact absurd rfl h1
        | cons _ _ => rfl
      simp only [calculateStreaks, hie, hie', Bool.false_eq_true, if_false, he']
    · obtain ⟨a, ha⟩ := hex
      refine ⟨a, ?_⟩
      rw [hcal]
      intro k hk
      exact (hmemds _).mp (ha k hk)
    · intro a n hr
      rw [hcal]
      exact hmax a n (fun k hk => (hmemds _).mpr (hr k hk))
    · rw [hcal]
      intro hc
      by_cases hcond : ¬ today ∈ sortedDates (entries.map (·.date)) ∧
          ¬ ((sortedDates (entries.map (·.date))).foldl
              (streakStep today) streakInit).yhc = true
      · rw [if_pos hcond] at hc
        exact absurd rfl hc
      · by_cases hmem : today ∈ sortedDates (entries.map (·.date))
        · exact Or.inl ((hmemds today).mp hmem)
        · have hyt : ((sortedDates (entries.map (·.date))).foldl
              (streakStep today) streakInit).yhc = true := by
            by_contra hf
            exact hcond ⟨hmem, hf⟩
          exact Or.inr ((hmemds (today - 1)).mp (hyhc hyt))

/-- Witness for the amended C2 on a two-entry list (days 0 and 1, today
being day 1). -/
theorem c2_witness :
    ([⟨0, (5 : ℚ)⟩, ⟨1, 7⟩] : List Entry) ≠ [] ∧
    hasRun (([⟨0, (5 : ℚ)⟩, ⟨1, 7⟩] : List Entry).map (·.date)) 0 2 ∧
    2 ≤ (calculateStreaks 1 [⟨0, (5 : ℚ)⟩, ⟨1, 7⟩]).1 ∧
    ((1 : Int) ∈ ([⟨0, (5 : ℚ)⟩, ⟨1, 7⟩] : List Entry).map (·.date) ∨
     (1 : Int) - 1 ∈ ([⟨0, (5 : ℚ)⟩, ⟨1, 7⟩] : List Entry).map (·.date)) :=
  ⟨by decide, by decide,
   (c2_streak_semantics 1 _ (by decide)).2.2.1 0 2 (by decide),
   (c2_streak_semantics 1 _ (by decide)).2.2.2 (by decide)⟩

/-! ## Claim C5: day-of-week productivity -/

theorem dayAccum_go (entries : List Entry) :
    ∀ (t : Fin 7 → ℚ) (c : Fin 7 → ℕ) (i : Fin 7),
      ((entries.foldl
          (fun tc e =>
            let i := dowFin e.date
            (Function.update tc.1 i (tc.1 i + e.timeSpent),
             Function.update tc.2 i (tc.2 i + 1)))
          (t, c)).1 i =
        t i + ((entries.filter fun e => dowFin e.date = i).map (·.timeSpent)).sum) ∧
      ((entries.foldl
          (fun tc e =>
            let i := dowFin e.date
            (Function.update tc.1 i (tc.1 i + e.timeSpent),
             Function.update tc.2 i (tc.2 i + 1)))
          (t, c)).2 i =
        c i + (entries.filter fun e => dowFin e.date = i).length) := by
  induction entries with
  | nil => intro t c i; simp
  | cons e rest ih =>
    intro t c i
    simp only [List.foldl_cons]
    obtain ⟨ih1, ih2⟩ :=
      ih (Function.update t (dowFin e.date) (t (dowFin e.date) + e.timeSpent))
        (Function.update c (dowFin e.date) (c (dowFin e.date) + 1)) i
    rw [List.filter_cons]
    by_cases hd : dowFin e.date = i
    · subst hd
      rw [if_pos (by simp)]
      constructor
      · rw [ih1, Function.update_same, List.map_cons, List.sum_cons]
        ring
      · rw [ih2, Function.update_same, List.length_cons]
        omega
    · rw [if_neg (by simpa using hd)]
      constructor
      · rw [ih1, Function.update_apply, if_neg (fun h => hd h.symm)]
      · rw [ih2, Function.update_apply, if_neg (fun h => hd h.symm)]

theorem dayAccum_spec (entries : List Entry) (i : Fin 7) :
    (dayAccum entries).1 i =
      ((entries.filter fun e => dowFin e.date = i).map (·.timeSpent)).sum ∧
    (dayAccum entries).2 i = (entries.filter fun e => dowFin e.date = i).length := by
  have h := dayAccum_go entries (fun _ => 0) (fun _ => 0) i
  simpa [dayAccum] using h

theorem listMax_mem : ∀ l : List ℚ, l ≠ [] → listMax l ∈ l
  | [], h => absurd rfl h
  | [a], _ => by simp [listMax]
  | a :: b :: rest, _ => by
    rw [listMax]
    rcases le_total a (listMax (b :: rest)) with h | h
    · rw [max_eq_right h]
      exact List.mem_cons_of_mem _ (listMax_mem (b :: rest) (List.cons_ne_nil _ _))
    · rw [max_eq_left h]
      exact List.mem_cons_self _ _

theorem le_listMax : ∀ (l : List ℚ) (x : ℚ), x ∈ l → x ≤ listMax l := by
  intro l
  induction l with
  | nil => intro x hx; simp at hx
  | cons a t ih =>
    intro x hx
    cases t with
    | nil =>
      rcases List.mem_singleton.mp hx with rfl
      simp [listMax]
    | cons b t' =>
      rw [listMax]
      rcases List.mem_cons.mp hx with rfl | hx'
      · exact le_max_left _ _
      · exact le_trans (ih x hx') (le_max_right _ _)

theorem jsIndexOf_spec : ∀ (l : List ℚ) (a : ℚ), a ∈ l →
    jsIndexOf l a < l.length ∧ l.getD (jsIndexOf l a) 0 = a ∧
      ∀ j : ℕ, j < jsIndexOf l a → l.getD j 0 ≠ a := by
  intro l
  induction l with
  | nil => intro a ha; simp at ha
  | cons b t ih =>
    intro a ha
    by_cases hb : b = a
    · subst hb
      refine ⟨by simp [jsIndexOf], by simp [jsIndexOf], fun j hj => ?_⟩
      simp [jsIndexOf] at hj
    · have ha' : a ∈ t := by
        rcases List.mem_cons.mp ha with rfl | h
        · exact absurd rfl hb
        · exact h
      obtain ⟨ih1, ih2, ih3⟩ := ih a ha'
      rw [jsIndexOf, if_neg hb]
      refine ⟨by simpa using Nat.succ_lt_succ ih1, by simpa using ih2, fun j hj => ?_⟩
      cases j with
      | zero => simpa using hb
      | succ j' =>
        rw [List.getD_cons_succ]
        exact ih3 j' (by omega)

theorem getD_ofFn_fin (f : Fin 7 → ℚ) (i : Fin 7) :
    (List.ofFn f).getD (i : ℕ) 0 = f i := by
  rw [List.getD_eq_getElem _ _ (by simpa using i.isLt)]
  rw [List.getElem_ofFn]

/-- Claim C5: `calculateDayOfWeekStats` computes, for each of the seven
weekdays, the average minutes per weekday over all entries (zero when a
weekday has no entries), and reports as most productive the weekday with the
maximal average, ties broken by the lowest weekday index (Sunday = 0
first). -/
theorem c5_day_of_week_stats (entries : List Entry) :
    (calculateDayOfWeekStats entries).days.length = 7 ∧
    (∀ i : Fin 7,
      (calculateDayOfWeekStats entries).days.getD (i : ℕ) 0 =
        if 0 < (entries.filter fun e => dowFin e.date = i).length then
          ((entries.filter fun e => dowFin e.date = i).map (·.timeSpent)).sum /
            ((entries.filter fun e => dowFin e.date = i).length : ℚ)
        else 0) ∧
    (calculateDayOfWeekStats entries).mostProductive.index < 7 ∧
    (∀ i : Fin 7,
      (calculateDayOfWeekStats entries).days.getD (i : ℕ) 0 ≤
        (calculateDayOfWeekStats entries).days.getD
          (calculateDayOfWeekStats entries).mostProductive.index 0) ∧
    (∀ j : ℕ, j < (calculateDayOfWeekStats entries).mostProductive.index →
      (calculateDayOfWeekStats entries).days.getD j 0 <
        (calculateDayOfWeekStats entries).days.getD
          (calculateDayOfWeekStats entries).mostProductive.index 0) ∧
    (calculateDayOfWeekStats entries).mostProductive.avgTime =
      (calculateDayOfWeekStats entries).days.getD
        (calculateDayOfWeekStats entries).mostProductive.index 0 ∧
    (calculateDayOfWeekStats entries).mostProductive.name =
      dayNames.getD (calculateDayOfWeekStats entries).mostProductive.index "" := by
  have hdays : (calculateDayOfWeekStats entries).days =
      List.ofFn (fun i : Fin 7 =>
        if 0 < (dayAccum entries).2 i then
          (dayAccum entries).1 i / ((dayAccum entries).2 i : ℚ)
        else 0) := rfl
  have hidx : (calculateDayOfWeekStats entries).mostProductive.index =
      jsIndexOf (calculateDayOfWeekStats entries).days
        (listMax (calculateDayOfWeekStats entries).days) := rfl
  have havg : (calculateDayOfWeekStats entries).mostProductive.avgTime =
      (calculateDayOfWeekStats entries).days.getD
        (calculateDayOfWeekStats entries).mostProductive.index 0 := rfl
  have hname : (calculateDayOfWeekStats entries).mostProductive.name =
      dayNames.getD (calculateDayOfWeekStats entries).mostProductive.index "" := rfl
  have hlen : (calculateDayOfWeekStats entries).days.length = 7 := by
    rw [hdays]
    simp
  have hnil : (calculateDayOfWeekStats entries).days ≠ [] := by
    intro h
    rw [h] at hlen
    simp at hlen
  have hmm : listMax (calculateDayOfWeekStats entries).days ∈
      (calculateDayOfWeekStats entries).days :=
    listMax_mem _ hnil
  obtain ⟨hlt, hget, hne⟩ :=
    jsIndexOf_spec (calculateDayOfWeekStats entries).days
      (listMax (calculateDayOfWeekStats entries).days) hmm
  have hgetfin : ∀ i : Fin 7,
      (calculateDayOfWeekStats entries).days.getD (i : ℕ) 0 =
        if 0 < (entries.filter fun e => dowFin e.date = i).length then
          ((entries.filter fun e => dowFin e.date = i).map (·.timeSpent)).sum /
            ((entries.filter fun e => dowFin e.date = i).length : ℚ)
        else 0 := by
    intro i
    rw [hdays, getD_ofFn_fin]
    rw [(dayAccum_spec entries i).1, (dayAccum_spec entries i).2]
  have hmemD : ∀ i : Fin 7,
      (calculateDayOfWeekStats entries).days.getD (i : ℕ) 0 ∈
        (calculateDayOfWeekStats entries).days := by
    intro i
    rw [hdays, getD_ofFn_fin]
    exact (List.mem_ofFn _ _).mpr ⟨i, rfl⟩
  refine ⟨hlen, hgetfin, ?_, ?_, ?_, havg, hname⟩
  · rw [hidx]
    rw [hlen] at hlt
    exact hlt
  · intro i
    rw [hidx, hget]
    exact le_listMax _ _ (hmemD i)
  · intro j hj
    rw [hidx] at hj ⊢
    rw [hget]
    have hj7 : j < 7 := by
      rw [← hlen]
      exact lt_trans hj hlt
    have hjle : (calculateDayOfWeekStats entries).days.getD j 0 ≤
        listMax (calculateDayOfWeekStats entries).days := by
      have := hmemD ⟨j, hj7⟩
      exact le_listMax _ _ this
    exact lt_of_le_of_ne hjle (hne j hj)

/-- Witness for C5 on the empty entry list. -/
theorem c5_witness :
    (calculateDayOfWeekStats []).days.length = 7 ∧
    (calculateDayOfWeekStats []).mostProductive.index < 7 ∧
    (calculateDayOfWeekStats []).days.getD ((3 : Fin 7) : ℕ) 0 ≤
      (calculateDayOfWeekStats []).days.getD
        (calculateDayOfWeekStats []).mostProductive.index 0 :=
  ⟨(c5_day_of_week_stats []).1, (c5_day_of_week_stats []).2.2.1,
   (c5_day_of_week_stats []).2.2.2.1 3⟩

/-! ## Claim C4: rollup totals -/

theorem leapsBefore_succ (y : ℕ) (hy : 1 ≤ y) :
    leapsBefore (y + 1) = leapsBefore y + (if leapYear y then 1 else 0) := by
  obtain ⟨m, rfl⟩ : ∃ m, y = m + 1 := ⟨y - 1, by omega⟩
  unfold leapsBefore
  simp only [Nat.add_sub_cancel]
  rw [Nat.succ_div, Nat.succ_div, Nat.succ_div]
  have h4 : m / 100 ≤ m / 4 := Nat.div_le_div_left (by norm_num) (by norm_num)
  by_cases hl : leapYear (m + 1)
  · rw [if_pos hl]
    unfold leapYear at hl
    by_cases d100 : 100 ∣ m + 1
    · have d4 : (4 : ℕ) ∣ m + 1 := dvd_trans (by norm_num) d100
      have d400 : (400 : ℕ) ∣ m + 1 := by
        rcases hl with ⟨_, h100⟩ | h400
        · exact absurd (by omega) h100
        · omega
      rw [if_pos d4, if_pos d100, if_pos d400]
      omega
    · have d4 : (4 : ℕ) ∣ m + 1 := by
        rcases hl with ⟨h4', _⟩ | h400
        · omega
        · omega
      have nd400 : ¬ (400 : ℕ) ∣ m + 1 := fun h => d100 (dvd_trans (by norm_num) h)
      rw [if_pos d4, if_neg d100, if_neg nd400]
      omega
  · rw [if_neg hl]
    unfold leapYear at hl
    push_neg at hl
    by_cases d4 : (4 : ℕ) ∣ m + 1
    · have d100 : (100 : ℕ) ∣ m + 1 := by
        have := hl.1 (by omega)
        omega
      have nd400 : ¬ (400 : ℕ) ∣ m + 1 := by
        intro h
        exact hl.2 (by omega)
      rw [if_pos d4, if_pos d100, if_neg nd400]
      omega
    · have nd100 : ¬ (100 : ℕ) ∣ m + 1 := fun h => d4 (dvd_trans (by norm_num) h)
      have nd400 : ¬ (400 : ℕ) ∣ m + 1 := fun h => d4 (dvd_trans (by norm_num) h)
      rw [if_neg d4, if_neg nd100, if_neg nd400]
      omega

theorem daysBeforeMonth_succ (y m : ℕ) (h1 : 1 ≤ m) (h2 : m ≤ 11) :
    daysBeforeMonth y (m + 1) = daysBeforeMonth y m + daysInMonth y m := by
  interval_cases m <;> by_cases hl : leapYear y <;>
    simp [daysBeforeMonth, daysInMonth, hl]

theorem daysInMonth_ge (y m : ℕ) : 28 ≤ daysInMonth y m := by
  unfold daysInMonth
  split_ifs <;> omega

theorem toDays_startOfWeek (c : CalendarDate) (hv : ValidDate c) :
    toDays (startOfWeek c) = toDays c - dayOfWeekC c := by
  obtain ⟨hy, hm1, hm2, hd1, hd2⟩ := hv
  have hw7 : dayOfWeekC c < 7 := Nat.mod_lt _ (by norm_num)
  unfold startOfWeek
  by_cases h1 : dayOfWeekC c < c.day
  · rw [if_pos h1]
    simp only [toDays]
    omega
  · rw [if_neg h1]
    by_cases h2 : c.month = 1
    · rw [if_pos h2]
      have hls := leapsBefore_succ (c.year - 1) (by omega)
      rw [show c.year - 1 + 1 = c.year by omega] at hls
      have hb12 : daysBeforeMonth (c.year - 1) 12 =
          334 + (if leapYear (c.year - 1) then 1 else 0) := by
        by_cases hl : leapYear (c.year - 1) <;> simp [daysBeforeMonth, hl]
      have hb1 : daysBeforeMonth c.year 1 = 0 := by simp [daysBeforeMonth]
      simp only [toDays, h2]
      rw [hb12, hb1, hls]
      by_cases hl : leapYear (c.year - 1)
      · rw [if_pos hl]
        omega
      · rw [if_neg hl]
        omega
    · rw [if_neg h2]
      have hsucc := daysBeforeMonth_succ c.year (c.month - 1) (by omega) (by omega)
      rw [show c.month - 1 + 1 = c.month by omega] at hsucc
      have hge := daysInMonth_ge c.year (c.month - 1)
      simp only [toDays]
      omega

/-- Claim C4: each rollup total equals the sum of `timeSpent` over exactly
the entries whose date lies in the closed interval `[periodStart, today]`:
for the weekly rollup `periodStart` is the Sunday that starts the current
week (weekday 0, at most 6 days before today), for the monthly rollup the
first day of the current month, for the yearly rollup January 1 of the
current year, and the today rollup sums only entries dated today. -/
theorem c4_rollup_totals (now : CalendarDate) (entries : List Entry)
    (hv : ValidDate now) :
    (getTodayTime (toDays now : Int) entries =
      ((entries.filter fun e => e.date = (toDays now : Int)).map (·.timeSpent)).sum) ∧
    (getThisWeekTime now entries =
      ((entries.filter fun e =>
          ((toDays (startOfWeek now) : Int) ≤ e.date ∧
            e.date ≤ (toDays now : Int))).map (·.timeSpent)).sum) ∧
    dayOfWeekC (startOfWeek now) = 0 ∧
    toDays (startOfWeek now) ≤ toDays now ∧
    toDays now < toDays (startOfWeek now) + 7 ∧
    (getThisMonthTime now entries =
      ((entries.filter fun e =>
          ((toDays ⟨now.year, now.month, 1⟩ : Int) ≤ e.date ∧
            e.date ≤ (toDays now : Int))).map (·.timeSpent)).sum) ∧
    (getThisYearTime now entries =
      ((entries.filter fun e =>
          ((toDays ⟨now.year, 1, 1⟩ : Int) ≤ e.date ∧
            e.date ≤ (toDays now : Int))).map (·.timeSpent)).sum) := by
  have hiden := toDays_startOfWeek now hv
  have hw7 : dayOfWeekC now < 7 := Nat.mod_lt _ (by norm_num)
  refine ⟨rfl, rfl, ?_, ?_, ?_, rfl, rfl⟩
  · unfold dayOfWeekC at *
    rw [hiden]
    omega
  · rw [hiden]
    omega
  · rw [hiden]
    unfold dayOfWeekC at *
    omega

/-- Witness for C4 at 2024-05-15 (a Wednesday) with no entries. -/
theorem c4_witness :
    ValidDate ⟨2024, 5, 15⟩ ∧
    dayOfWeekC (startOfWeek ⟨2024, 5, 15⟩) = 0 ∧
    toDays (startOfWeek ⟨2024, 5, 15⟩) ≤ toDays ⟨2024, 5, 15⟩ ∧
    toDays ⟨2024, 5, 15⟩ < toDays (startOfWeek ⟨2024, 5, 15⟩) + 7 ∧
    getThisWeekTime ⟨2024, 5, 15⟩ [] =
      ((([] : List Entry).filter fun e =>
          ((toDays (startOfWeek ⟨2024, 5, 15⟩) : Int) ≤ e.date ∧
            e.date ≤ (toDays ⟨2024, 5, 15⟩ : Int))).map (·.timeSpent)).sum :=
  ⟨by decide,
   (c4_rollup_totals ⟨2024, 5, 15⟩ [] (by decide)).2.2.1,
   (c4_rollup_totals ⟨2024, 5, 15⟩ [] (by decide)).2.2.2.1,
   (c4_rollup_totals ⟨2024, 5, 15⟩ [] (by decide)).2.2.2.2.1,
   (c4_rollup_totals ⟨2024, 5, 15⟩ [] (by decide)).2.1⟩

/-! ## Claim C6: commit validation and the per-date invariant -/

theorem dateTotal_nil (day : Int) : dateTotal [] day = 0 := rfl

theorem dateTotal_cons (e : StoreEntry) (rest : List StoreEntry) (day : Int) :
    dateTotal (e :: rest) day =
      (if e.key.date = day then e.timeSpentMinutes else 0) + dateTotal rest day := by
  unfold dateTotal
  rw [List.filter_cons]
  by_cases h : e.key.date = day
  · simp [h]
  · simp [h]

theorem dateTotal_mergeEntry (k : EntryKey) (d : ℚ) (day : Int) :
    ∀ store : List StoreEntry,
      dateTotal (mergeEntry store k d) day =
        dateTotal store day + (if k.date = day then d else 0) := by
  intro store
  induction store with
  | nil =>
    rw [mergeEntry, dateTotal_cons, dateTotal_nil]
    by_cases h : k.date = day <;> simp [h]
  | cons e rest ih =>
    rw [mergeEntry]
    by_cases he : e.key = k
    · rw [if_pos he, dateTotal_cons, dateTotal_cons]
      by_cases hd : k.date = day
      · rw [he]
        simp only [hd, if_pos]
        ring
      · rw [he]
        simp only [hd, if_neg, if_false]
        ring
    · rw [if_neg he, dateTotal_cons, dateTotal_cons, ih]
      ring

/-- Claim C6: a delta outside `[0, 1440]` is rejected — the persisted store
is left unchanged, no entry written, nothing clamped — and every store
reachable from the empty store through the validated commit path keeps the
sum of persisted minutes of every single date at or below 1440. -/
theorem c6_commit_validation :
    (∀ (store : List StoreEntry) (k : EntryKey) (delta : ℚ),
      delta < 0 ∨ 1440 < delta → commitDelta store k delta = store) ∧
    (∀ (ds : List (EntryKey × ℚ)) (day : Int),
      dateTotal (commitAll [] ds) day ≤ 1440) := by
  constructor
  · intro store k delta h
    unfold commitDelta
    rcases h with h | h
    · rw [if_pos (Or.inl h)]
    · rw [if_pos (Or.inr (Or.inl h))]
  · have key : ∀ (ds : List (EntryKey × ℚ)) (store : List StoreEntry),
        (∀ day, dateTotal store day ≤ 1440) →
        ∀ day, dateTotal (commitAll store ds) day ≤ 1440 := by
      intro ds
      induction ds with
      | nil => intro store h day; exact h day
      | cons p rest ih =>
        intro store h day
        unfold commitAll
        rw [List.foldl_cons]
        apply ih
        intro day'
        unfold commitDelta
        by_cases hg : p.2 < 0 ∨ 1440 < p.2 ∨ 1440 < dateTotal store p.1.date + p.2
        · rw [if_pos hg]
          exact h day'
        · rw [if_neg hg]
          push_neg at hg
          obtain ⟨hg1, hg2, hg3⟩ := hg
          rw [dateTotal_mergeEntry]
          by_cases hd : p.1.date = day'
          · rw [if_pos hd]
            rw [hd] at hg3
            linarith
          · rw [if_neg hd]
            have := h day'
            linarith
    intro ds day
    apply key ds [] ?_ day
    intro d
    rw [dateTotal_nil]
    norm_num

/-- Witness for C6: an out-of-range delta (2000 minutes) is rejected on the
empty store, and a commit sequence keeps the date total within 1440. -/
theorem c6_witness :
    ((2000 : ℚ) < 0 ∨ (1440 : ℚ) < 2000) ∧
    commitDelta [] ⟨0, "p", none, none⟩ 2000 = [] ∧
    dateTotal (commitAll [] [(⟨0, "p", none, none⟩, 100)]) 0 ≤ 1440 :=
  ⟨Or.inr (by decide),
   c6_commit_validation.1 [] ⟨0, "p", none, none⟩ 2000 (Or.inr (by decide)),
   c6_commit_validation.2 [(⟨0, "p", none, none⟩, 100)] 0⟩

/-! ## Claim C7: additive merge round-trip -/

theorem entriesFor_nil_merge (k : EntryKey) (d : ℚ) :
    ∀ store : List StoreEntry, entriesFor k store = [] →
      entriesFor k (mergeEntry store k d) = [⟨k, d⟩] := by
  intro store
  induction store with
  | nil => intro _; simp [mergeEntry, entriesFor]
  | cons e rest ih =>
    intro h
    unfold entriesFor at h ⊢
    rw [List.filter_cons] at h
    by_cases he : e.key = k
    · rw [if_pos (by simpa using he)] at h
      exact absurd h (List.cons_ne_nil _ _)
    · rw [mergeEntry, if_neg he, List.filter_cons, if_neg (by simpa using he)]
      rw [if_neg (by simpa using he)] at h
      exact ih h

theorem entriesFor_one_merge (k : EntryKey) (d m : ℚ) :
    ∀ store : List StoreEntry, entriesFor k store = [⟨k, m⟩] →
      entriesFor k (mergeEntry store k d) = [⟨k, m + d⟩] := by
  intro store
  induction store with
  | nil => intro h; simp [entriesFor] at h
  | cons e rest ih =>
    intro h
    unfold entriesFor at h ⊢
    rw [List.filter_cons] at h
    by_cases he : e.key = k
    · rw [if_pos (by simpa using he)] at h
      injection h with h1 h2
      subst h1
      rw [mergeEntry, if_pos he, List.filter_cons, if_pos (by simp)]
      rw [h2]
    · rw [mergeEntry, if_neg he, List.filter_cons, if_neg (by simpa using he)]
      rw [if_neg (by simpa using he)] at h
      exact ih h

theorem entriesFor_applyMerges (k : EntryKey) :
    ∀ (ds : List ℚ) (store : List StoreEntry) (m : ℚ),
      entriesFor k store = [⟨k, m⟩] →
      entriesFor k (applyMerges store k ds) = [⟨k, m + ds.sum⟩] := by
  intro ds
  induction ds with
  | nil =>
    intro store m h
    simpa [applyMerges] using h
  | cons d rest ih =>
    intro store m h
    unfold applyMerges
    rw [List.foldl_cons, List.sum_cons]
    have h2 := ih (mergeEntry store k d) (m + d) (entriesFor_one_merge k d m store h)
    rw [show m + (d + rest.sum) = m + d + rest.sum by ring]
    exact h2

/-- Counterexample to claim C7 as stated: for N = 0 (zero deltas), flushing
yields no entry at all for the key, not one merged entry with minutes equal
to the (empty) sum. -/
theorem c7_counterexample :
    entriesFor ⟨0, "p", none, none⟩ (applyMerges [] ⟨0, "p", none, none⟩ []) = [] ∧
    ([] : List StoreEntry) ≠ [⟨⟨0, "p", none, none⟩, ([] : List ℚ).sum⟩] := by
  constructor
  · rfl
  · decide

/-- Claim C7 (amended): for every `N ≥ 1`, merging `N` deltas for a fixed
`(date, project, branch, language)` key into a store holding no entry for
that key yields exactly one merged entry for the key, whose minutes equal
the sum of the `N` deltas. -/
theorem c7_merge_roundtrip (k : EntryKey) (ds : List ℚ) (hne : ds ≠ []) :
    entriesFor k (applyMerges [] k ds) = [⟨k, ds.sum⟩] := by
  cases ds with
  | nil => exact absurd rfl hne
  | cons d rest =>
    unfold applyMerges
    rw [List.foldl_cons, List.sum_cons]
    have h0 : entriesFor k (mergeEntry [] k d) = [⟨k, d⟩] :=
      entriesFor_nil_merge k d [] (by simp [entriesFor])
    have h2 := entriesFor_applyMerges k rest (mergeEntry [] k d) d h0
    rw [show d + rest.sum = d + rest.sum by ring]
    exact h2

/-- Witness for the amended C7 with two deltas. -/
theorem c7_witness :
    ([10, 20] : List ℚ) ≠ [] ∧
    entriesFor ⟨0, "p", none, none⟩ (applyMerges [] ⟨0, "p", none, none⟩ [10, 20]) =
      [⟨⟨0, "p", none, none⟩, ([10, 20] : List ℚ).sum⟩] :=
  ⟨by decide, c7_merge_roundtrip ⟨0, "p", none, none⟩ [10, 20] (by decide)⟩

/-! ## Claim C8: the machine stays Active under frequent activity -/

theorem chron_weaken (t t' : Int) (evs : List TEvent) (h : t' ≤ t)
    (hc : chron t evs = true) : chron t' evs = true := by
  cases evs with
  | nil => rfl
  | cons e rest =>
    rw [chron, Bool.and_eq_true] at hc ⊢
    refine ⟨decide_eq_true ?_, hc.2⟩
    have := of_decide_eq_true hc.1
    omega

theorem endsWith_tail (e : TEvent) (rest : List TEvent) (hne : rest ≠ [])
    (h : endsWithActivity (e :: rest) = true) : endsWithActivity rest = true := by
  cases rest with
  | nil => exact absurd rfl hne
  | cons e' rest' => rw [endsWithActivity] at h; exact h

theorem endsWith_hasActivity : ∀ evs : List TEvent, endsWithActivity evs = true →
    hasActivity evs = true := by
  intro evs
  induction evs with
  | nil => intro h; simp [endsWithActivity] at h
  | cons e rest ih =>
    intro h
    cases rest with
    | nil =>
      cases e with
      | activity t => rfl
      | tick t => simp [endsWithActivity] at h
      | focusGained t => simp [endsWithActivity] at h
      | focusLost t => simp [endsWithActivity] at h
    | cons e' rest' =>
      have h' := ih (endsWith_tail e (e' :: rest') (List.cons_ne_nil _ _) h)
      cases e with
      | activity t => rfl
      | tick t => simpa [hasActivity] using h'
      | focusGained t => simpa [hasActivity] using h'
      | focusLost t => simpa [hasActivity] using h'

theorem gap_bound : ∀ (l : List TEvent) (iT la t : Int),
    gapsOK iT la l = true → chron t l = true → hasActivity l = true →
    t - la < iT := by
  intro l
  induction l with
  | nil => intro iT la t _ _ hA; simp [hasActivity] at hA
  | cons e rest ih =>
    intro iT la t hg hc hA
    cases e with
    | activity u =>
      simp only [gapsOK, Bool.and_eq_true] at hg
      have h1 : u - la < iT := of_decide_eq_true hg.1
      rw [chron, Bool.and_eq_true] at hc
      have h2 : t ≤ u := of_decide_eq_true hc.1
      omega
    | tick u =>
      simp only [gapsOK] at hg
      rw [chron, Bool.and_eq_true] at hc
      have h2 : t ≤ u := of_decide_eq_true hc.1
      have h3 := ih iT la u hg hc.2 (by simpa [hasActivity] using hA)
      omega
    | focusGained u => simp [gapsOK] at hg
    | focusLost u => simp [gapsOK] at hg

theorem remainsActive_aux (iT fT : Int) :
    ∀ (evs : List TEvent) (s : Session) (la : Int),
      s.phase = .active → s.focused = true → s.lastActivityAt = la →
      chron la evs = true → gapsOK iT la evs = true →
      (evs = [] ∨ endsWithActivity evs = true) →
      remainsActive iT fT s evs = true := by
  intro evs
  induction evs with
  | nil =>
    intro s la hp _ _ _ _ _
    rw [remainsActive]
    exact decide_eq_true hp
  | cons e rest ih =>
    intro s la hp hf hla hc hg hend
    rw [remainsActive, Bool.and_eq_true]
    refine ⟨decide_eq_true hp, ?_⟩
    have hendr : rest = [] ∨ endsWithActivity rest = true := by
      rcases hend with h | h
      · exact absurd h (List.cons_ne_nil _ _)
      · cases rest with
        | nil => exact Or.inl rfl
        | cons e' r' => exact Or.inr (endsWith_tail e _ (List.cons_ne_nil _ _) h)
    cases e with
    | activity t =>
      apply ih _ t
      · rfl
      · simpa [stepEvent] using hf
      · rfl
      · rw [chron, Bool.and_eq_true] at hc
        exact hc.2
      · simp only [gapsOK, Bool.and_eq_true] at hg
        exact hg.2
      · exact hendr
    | tick t =>
      have hcr : chron t rest = true := by
        rw [chron, Bool.and_eq_true] at hc
        exact hc.2
      have hlat : la ≤ t := by
        rw [chron, Bool.and_eq_true] at hc
        exact of_decide_eq_true hc.1
      have hgr : gapsOK iT la rest = true := by simpa [gapsOK] using hg
      have hrestA : hasActivity rest = true := by
        rcases hendr with rfl | h
        · rcases hend with h' | h'
          · exact absurd h' (List.cons_ne_nil _ _)
          · simp [endsWithActivity] at h'
        · exact endsWith_hasActivity rest h
      have hgap : t - la < iT := gap_bound rest iT la t hgr hcr hrestA
      have hstep : stepEvent iT fT s (TEvent.tick t) = s := by
        simp only [stepEvent]
        split_ifs with h1 h2
        · exfalso
          obtain ⟨_, _, hcond⟩ := h1
          rw [hla] at hcond
          omega
        · exfalso
          obtain ⟨_, hfoc, _⟩ := h2
          rw [hf] at hfoc
          simp at hfoc
        · rfl
      rw [hstep]
      exact ih s la hp hf hla (chron_weaken t la rest hlat hcr) hgr hendr
    | focusGained t => simp [gapsOK] at hg
    | focusLost t => simp [gapsOK] at hg

/-- Claim C8: for every sequence of activity signals in which consecutive
signals are spaced less than `inactivityTimeout` apart while the editor is
focused — with scheduler ticks interleaved anywhere within the span of the
sequence — the session state machine remains in the `Active` state
throughout: the Active → Paused inactivity transition fires only once more
than `inactivityTimeout` passes with no activity signal. -/
theorem c8_stays_active (iT fT : Int) (s0 : Session) (evs : List TEvent)
    (hphase : s0.phase = .active) (hfoc : s0.focused = true)
    (hchron : chron s0.lastActivityAt evs = true)
    (hgaps : gapsOK iT s0.lastActivityAt evs = true)
    (hend : endsWithActivity evs = true) :
    remainsActive iT fT s0 evs = true :=
  remainsActive_aux iT fT evs s0 s0.lastActivityAt hphase hfoc rfl hchron hgaps
    (Or.inr hend)

/-- Witness for C8: five events over 5 time units with a 150-unit timeout. -/
theorem c8_witness :
    chron 0 [TEvent.activity 1, TEvent.tick 2, TEvent.activity 3, TEvent.tick 4,
      TEvent.activity 5] = true ∧
    gapsOK 150 0 [TEvent.activity 1, TEvent.tick 2, TEvent.activity 3, TEvent.tick 4,
      TEvent.activity 5] = true ∧
    endsWithActivity [TEvent.activity 1, TEvent.tick 2, TEvent.activity 3, TEvent.tick 4,
      TEvent.activity 5] = true ∧
    remainsActive 150 180 ⟨.active, 0, true, none⟩
      [TEvent.activity 1, TEvent.tick 2, TEvent.activity 3, TEvent.tick 4,
        TEvent.activity 5] = true :=
  ⟨by decide, by decide, by decide,
   c8_stays_active 150 180 ⟨.active, 0, true, none⟩
     [TEvent.activity 1, TEvent.tick 2, TEvent.activity 3, TEvent.tick 4,
       TEvent.activity 5] rfl rfl (by decide) (by decide) (by decide)⟩
